import Mathlib

/-!
Verification of the matryoshka demo native core: a bit-packed sieve of
Eratosthenes with an integer square root, a prime-counting facade, an
nth-prime facade with an integer-only upper-bound estimator, and the i64
FFI guards. Definitions are shallow embeddings of the Rust source in
src/demo/ext/matryoshka_demo_native (core/src/lib.rs and ffi/src/lib.rs).
-/

set_option maxHeartbeats 2000000

/-- Integer square root Newton loop, embedding the while loop of isqrt in
core/src/lib.rs: while y < x, set x = y and y = (x + n / x) / 2. -/
def isqrtLoop (n x y : Nat) : Nat :=
  if y < x then isqrtLoop n y ((y + n / y) / 2) else x
termination_by x
decreasing_by exact ‹y < x›

/-- Integer square root, embedding isqrt in core/src/lib.rs: for n below 2
return n, otherwise run the Newton loop from x = n, y = (x + 1) / 2. -/
def isqrt (n : Nat) : Nat :=
  if n < 2 then n else isqrtLoop n n ((n + 1) / 2)

/-- Bitset-based sieve of Eratosthenes, embedding struct BitSieve in
core/src/lib.rs: a byte buffer (each entry the value of a u8) and the
exclusive domain bound size. -/
structure BitSieve where
  bits : List Nat
  size : Nat
deriving DecidableEq, Repr

namespace BitSieve

/-- Embedding of BitSieve.is_set: for n past size return false, otherwise
test the bit at n % 8 of byte n / 8. -/
def is_set (s : BitSieve) (n : Nat) : Bool :=
  if n ≥ s.size then false
  else ((s.bits.getD (n / 8) 0) &&& (1 <<< (n % 8))) != 0

/-- Embedding of BitSieve.clear: for n past size do nothing, otherwise
clear the bit at n % 8 of byte n / 8; the u8 complement of 1 << bit is
255 XOR (1 << bit). -/
def clear (s : BitSieve) (n : Nat) : BitSieve :=
  if n ≥ s.size then s
  else
    let b := (s.bits.getD (n / 8) 0) &&& (255 ^^^ (1 <<< (n % 8)))
    { s with bits := s.bits.set (n / 8) b }

/-- Embedding of BitSieve.new: allocate ceil((limit + 1) / 8) bytes all set
to 0xFF, record size = limit + 1, then clear bits 0 and 1. -/
def new (limit : Nat) : BitSieve :=
  let num_bytes := (limit + 1 + 7) / 8
  let s : BitSieve := { bits := List.replicate num_bytes 255, size := limit + 1 }
  (s.clear 0).clear 1

/-- Embedding of the inner while loop of BitSieve.run_sieve: starting at j,
clear j and step by i while j is at most limit. The source only runs this
with i at least 1; the guard 1 ≤ i makes the recursion terminate. -/
def clearMultiples (s : BitSieve) (i j limit : Nat) : BitSieve :=
  if _h : 1 ≤ i ∧ j ≤ limit then
    clearMultiples (s.clear j) i (j + i) limit
  else s
termination_by limit + 1 - j
decreasing_by omega

/-- Embedding of the outer while loop of BitSieve.run_sieve: for i from its
start value up to sqrt_limit, if i is still set clear the multiples of i
from i * i up to limit. -/
def sieveLoop (s : BitSieve) (i sqrt_limit limit : Nat) : BitSieve :=
  if i ≤ sqrt_limit then
    sieveLoop (if s.is_set i then s.clearMultiples i (i * i) limit else s)
      (i + 1) sqrt_limit limit
  else s
termination_by sqrt_limit + 1 - i
decreasing_by omega

/-- Embedding of BitSieve.run_sieve: with limit = size - 1 and sqrt_limit
its integer square root, run the sieve loops from i = 2. -/
def run_sieve (s : BitSieve) : BitSieve :=
  let limit := s.size - 1
  let sqrt_limit := isqrt limit
  s.sieveLoop 2 sqrt_limit limit

/-- Embedding of BitSieve.count_primes: count the set bits over indices
0 up to size. -/
def count_primes (s : BitSieve) : Nat :=
  (List.range s.size).countP (fun i => s.is_set i)

/-- Embedding of the scanning loop of BitSieve.nth_prime: scan indices from
i keeping a running count of set bits; return the index at which the count
reaches n, or none when the scan leaves the domain. -/
def nthLoop (s : BitSieve) (n i count : Nat) : Option Nat :=
  if i < s.size then
    if s.is_set i then
      if count + 1 = n then some i
      else nthLoop s n (i + 1) (count + 1)
    else nthLoop s n (i + 1) count
  else none
termination_by s.size - i
decreasing_by all_goals omega

/-- Embedding of BitSieve.nth_prime: none for n = 0, otherwise scan from
index 0 with count 0. -/
def nth_prime (s : BitSieve) (n : Nat) : Option Nat :=
  if n = 0 then none else s.nthLoop n 0 0

end BitSieve

/-- Embedding of the public facade count_primes in core/src/lib.rs: 0 for
limit below 2, otherwise build the sieve, run it and count. -/
def count_primes (limit : Nat) : Nat :=
  if limit < 2 then 0
  else ((BitSieve.new limit).run_sieve).count_primes

/-- Bit length of a natural number: 0 for 0, otherwise one more than the
bit length of n / 2. This is the quantity usize::BITS - n.leading_zeros()
computes for nonzero n on a 64-bit target. -/
def bitLen (n : Nat) : Nat :=
  if n = 0 then 0 else bitLen (n / 2) + 1
termination_by n
decreasing_by exact Nat.div_lt_self (Nat.pos_of_ne_zero ‹n ≠ 0›) (by omega)

/-- Embedding of n.leading_zeros() for a 64-bit usize: 64 minus the bit
length of n. -/
def leading_zeros (n : Nat) : Nat := 64 - bitLen n

/-- Embedding of estimate_nth_prime_upper_bound in core/src/lib.rs: 15 for
n below 6, otherwise n * log2_n * 2 with log2_n = usize::BITS minus the
leading zeros of n. -/
def estimate_nth_prime_upper_bound (n : Nat) : Nat :=
  if n < 6 then 15
  else
    let log2_n := 64 - leading_zeros n
    n * log2_n * 2

/-- Embedding of the public facade nth_prime in core/src/lib.rs: none for
n = 0, otherwise sieve up to the estimated upper bound and scan. -/
def nth_prime (n : Nat) : Option Nat :=
  if n = 0 then none
  else
    let limit := estimate_nth_prime_upper_bound n
    ((BitSieve.new limit).run_sieve).nth_prime n

/-- Embedding of count_primes_native in ffi/src/lib.rs: 0 for negative
limit, otherwise forward to the core on the unsigned value. -/
def count_primes_native (limit : Int) : Int :=
  if limit < 0 then 0
  else Int.ofNat (count_primes limit.toNat)

/-- Embedding of nth_prime_native in ffi/src/lib.rs: none for nonpositive
n, otherwise forward to the core on the unsigned value. -/
def nth_prime_native (n : Int) : Option Int :=
  if n ≤ 0 then none
  else (nth_prime n.toNat).map Int.ofNat

/-- Odd trial-division scan used by isPrime: starting at the odd candidate
d, while d * d is at most k, report false on the first odd divisor of k and
step to d + 2; the fuel argument drives the recursion. Written with Nat.rec
so that the kernel can evaluate it directly. -/
def scanOdd (k : Nat) (fuel d : Nat) : Bool :=
  Nat.rec (motive := fun _ => Nat → Bool)
    (fun _ => true)
    (fun _ ih e => if k < e * e then true else if k % e == 0 then false else ih (e + 2))
    fuel d

/-- Trial-division primality test used to state concrete prime-counting
facts in an efficiently evaluable form; with fuel 75 it is exact for every
k up to 23408, which covers every sieve domain this file evaluates. -/
def isPrime (k : Nat) : Bool :=
  if k < 2 then false
  else if k == 2 then true
  else if k % 2 == 0 then false
  else scanOdd k 75 3

/-- Number of k in [a, a + n) with isPrime k, written with Nat.rec so that
the kernel can evaluate it directly. -/
def primeCountFrom (a : Nat) (n : Nat) : Nat :=
  Nat.rec (motive := fun _ => Nat)
    0
    (fun m ih => ih + (if isPrime (a + m) then 1 else 0))
    n

/-! ### Correctness of the integer square root -/

lemma two_mul_sqrt_le_newton (n x : Nat) (hx : 1 ≤ x) :
    2 * Nat.sqrt n ≤ x + n / x := by
  by_contra hcon
  push_neg at hcon
  set s := Nat.sqrt n with hs
  set q := n / x with hq
  have h1 : s * s ≤ n := Nat.sqrt_le n
  have h2 : n < (q + 1) * x := by
    have hmod : n % x < x := Nat.mod_lt _ (by omega)
    have hdm : x * q + n % x = n := by rw [hq]; exact Nat.div_add_mod n x
    nlinarith [hdm, hmod]
  have h3 : (x + q + 1) * x ≤ (2 * s) * x := Nat.mul_le_mul_right x (by omega)
  have key : 2 * s * x ≤ s * s + x * x := by
    zify
    nlinarith [sq_nonneg ((s : ℤ) - (x : ℤ))]
  nlinarith [h1, h2, h3, key]

lemma sqrt_le_newton (n x : Nat) (hx : 1 ≤ x) :
    Nat.sqrt n ≤ (x + n / x) / 2 := by
  have h := two_mul_sqrt_le_newton n x hx
  omega

lemma isqrtLoop_eq_sqrt (n : Nat) (hn : 1 ≤ n) :
    ∀ x, 1 ≤ x → Nat.sqrt n ≤ x → isqrtLoop n x ((x + n / x) / 2) = Nat.sqrt n := by
  intro x
  induction x using Nat.strong_induction_on with
  | _ x ih =>
    intro hx hsx
    rw [isqrtLoop]
    set y := (x + n / x) / 2 with hy
    by_cases hlt : y < x
    · simp only [hlt, if_true]
      have hy1 : 1 ≤ y := by
        have := sqrt_le_newton n x hx
        have hs1 : 1 ≤ Nat.sqrt n := by
          have : Nat.sqrt 1 ≤ Nat.sqrt n := Nat.sqrt_le_sqrt hn
          simpa using this
        omega
      exact ih y hlt hy1 (sqrt_le_newton n x hx)
    · simp only [hlt, if_false]
      have hxy : x ≤ y := by omega
      have h2x : 2 * x ≤ x + n / x := by
        have := Nat.le_div_iff_mul_le (k := 2) (by omega) |>.mp (hy ▸ hxy)
        omega
      have hxx : x * x ≤ n := by
        have hxd : x ≤ n / x := by omega
        calc x * x ≤ x * (n / x) := Nat.mul_le_mul_left x hxd
        _ ≤ n := Nat.mul_div_le n x |>.trans_eq rfl |>.trans (le_refl n) |>.trans (le_refl n)
      have : x ≤ Nat.sqrt n := Nat.le_sqrt.mpr hxx
      omega

lemma and_one_shift_bne_zero (b i : Nat) :
    ((b &&& (1 <<< i)) != 0) = b.testBit i := by
  rw [Nat.shiftLeft_eq, one_mul, Nat.and_two_pow]
  cases h : b.testBit i
  · simp
  · simp [(Nat.two_pow_pos i).ne']

lemma testBit_clearByte (b j i : Nat) (_hj : j < 8) (hi : i < 8) :
    (b &&& (255 ^^^ (1 <<< j))).testBit i = (b.testBit i && !(decide (j = i))) := by
  have h255 : (255 : Nat) = 2 ^ 8 - 1 := rfl
  rw [Nat.testBit_and, Nat.testBit_xor, h255, Nat.testBit_two_pow_sub_one,
    Nat.shiftLeft_eq, one_mul, Nat.testBit_two_pow]
  simp [hi]

namespace BitSieve

/-- Well-formedness of a sieve state: the byte buffer has exactly the
length allocated by new, and every entry is a u8 value. -/
def Inv (s : BitSieve) : Prop :=
  s.bits.length = (s.size + 7) / 8 ∧ ∀ b ∈ s.bits, b < 256

lemma idx_lt_length {s : BitSieve} (hlen : s.bits.length = (s.size + 7) / 8)
    {n : Nat} (hn : n < s.size) : n / 8 < s.bits.length := by
  rw [hlen]; omega

lemma getD_lt_256 {s : BitSieve} (hInv : Inv s) (k : Nat) :
    s.bits.getD k 0 < 256 := by
  rcases Nat.lt_or_ge k s.bits.length with h | h
  · rw [List.getD_eq_getElem?_getD, List.getElem?_eq_getElem h]
    exact hInv.2 _ (List.getElem_mem h)
  · rw [List.getD_eq_getElem?_getD, List.getElem?_eq_none h]
    simp

@[simp] lemma size_clear (s : BitSieve) (n : Nat) : (s.clear n).size = s.size := by
  rw [clear]; split <;> rfl

@[simp] lemma length_clear (s : BitSieve) (n : Nat) :
    (s.clear n).bits.length = s.bits.length := by
  rw [clear]; split
  · rfl
  · simp

lemma Inv.clear {s : BitSieve} (hInv : Inv s) (n : Nat) : Inv (s.clear n) := by
  refine ⟨by simp [hInv.1], ?_⟩
  intro b hb
  rw [BitSieve.clear] at hb
  split at hb
  · exact hInv.2 _ hb
  · rcases List.mem_or_eq_of_mem_set hb with h | h
    · exact hInv.2 _ h
    · subst h
      exact lt_of_le_of_lt Nat.and_le_left (getD_lt_256 hInv _)

lemma is_set_eq_testBit {s : BitSieve} {n : Nat} (hn : n < s.size) :
    s.is_set n = (s.bits.getD (n / 8) 0).testBit (n % 8) := by
  rw [is_set, if_neg (by omega), and_one_shift_bne_zero]

lemma is_set_of_ge {s : BitSieve} {n : Nat} (hn : s.size ≤ n) :
    s.is_set n = false := by
  rw [is_set, if_pos hn]

lemma is_set_clear {s : BitSieve} (hlen : s.bits.length = (s.size + 7) / 8)
    (m n : Nat) : (s.clear m).is_set n = (s.is_set n && !(decide (n = m))) := by
  by_cases hm : s.size ≤ m
  · rw [clear, if_pos hm]
    by_cases hnm : n = m
    · subst hnm
      rw [is_set_of_ge hm]
      simp
    · simp [hnm]
  · push_neg at hm
    rw [clear, if_neg (by omega)]
    set b := (s.bits.getD (m / 8) 0) &&& (255 ^^^ (1 <<< (m % 8))) with hb
    set s2 : BitSieve := { s with bits := s.bits.set (m / 8) b } with hs2
    have hs2size : s2.size = s.size := rfl
    by_cases hn : s.size ≤ n
    · rw [is_set_of_ge (s := s2) (by rw [hs2size]; exact hn), is_set_of_ge hn]
      simp
    · push_neg at hn
      rw [is_set_eq_testBit (s := s2) (by rw [hs2size]; exact hn),
        is_set_eq_testBit hn]
      have hmlen : m / 8 < s.bits.length := idx_lt_length hlen hm
      by_cases hbyte : m / 8 = n / 8
      · have hgd : s2.bits.getD (n / 8) 0 = b := by
          show (s.bits.set (m / 8) b).getD (n / 8) 0 = b
          rw [List.getD_eq_getElem?_getD, ← hbyte, List.getElem?_set_self hmlen]
          rfl
        rw [hgd, hb, testBit_clearByte _ _ _ (Nat.mod_lt _ (by omega))
          (Nat.mod_lt _ (by omega))]
        have hmod : (decide (m % 8 = n % 8)) = (decide (n = m)) := by
          by_cases h : n = m
          · subst h; simp
          · have hne8 : ¬(m % 8 = n % 8) := by omega
            simp [h, hne8]
        rw [hmod, hbyte]
      · have hgd : s2.bits.getD (n / 8) 0 = s.bits.getD (n / 8) 0 := by
          show (s.bits.set (m / 8) b).getD (n / 8) 0 = s.bits.getD (n / 8) 0
          rw [List.getD_eq_getElem?_getD, List.getElem?_set_ne hbyte,
            ← List.getD_eq_getElem?_getD]
        have hne : (decide (n = m)) = false := by
          simp only [decide_eq_false_iff_not]
          intro h
          exact hbyte (by rw [h])
        rw [hgd, hne]
        simp

@[simp] lemma size_new (limit : Nat) : (new limit).size = limit + 1 := by
  simp [new]

lemma Inv_new (limit : Nat) : Inv (new limit) := by
  have hbase : Inv (⟨List.replicate ((limit + 1 + 7) / 8) 255, limit + 1⟩ : BitSieve) := by
    constructor
    · simp
    · intro b hb
      rw [List.eq_of_mem_replicate hb]
      omega
  exact (hbase.clear 0).clear 1

lemma is_set_new (limit n : Nat) :
    (new limit).is_set n = decide (2 ≤ n ∧ n < limit + 1) := by
  set base : BitSieve := (⟨List.replicate ((limit + 1 + 7) / 8) 255, limit + 1⟩ : BitSieve)
    with hbasedef
  have hbaselen : base.bits.length = (base.size + 7) / 8 := by simp [hbasedef]
  have hbase : ∀ k, base.is_set k = decide (k < limit + 1) := by
    intro k
    by_cases hk : k < limit + 1
    · rw [is_set_eq_testBit (s := base) hk]
      have hgd : base.bits.getD (k / 8) 0 = 255 := by
        rw [hbasedef]
        simp only [List.getD_eq_getElem?_getD]
        rw [List.getElem?_replicate_of_lt (by omega)]
        rfl
      rw [hgd]
      have h255 : (255 : Nat) = 2 ^ 8 - 1 := rfl
      rw [h255, Nat.testBit_two_pow_sub_one]
      simp [hk, Nat.mod_lt]
    · rw [is_set_of_ge (s := base) (by simpa [hbasedef] using hk)]
      simp
      omega
  have hnew : new limit = (base.clear 0).clear 1 := rfl
  have hlen0 : (base.clear 0).bits.length = ((base.clear 0).size + 7) / 8 := by
    simp [hbaselen]
  rw [hnew, is_set_clear hlen0, is_set_clear hbaselen, hbase n]
  by_cases hA : n < limit + 1 <;> by_cases hB : n = 0 <;> by_cases hC : n = 1 <;>
    simp [hA, hB, hC] <;> omega

lemma step_dvd_iff (i j n limit : Nat) (hi : 1 ≤ i) (_hj : j ≤ limit) (hne : n ≠ j) :
    (j + i ≤ n ∧ n ≤ limit ∧ i ∣ n - (j + i)) ↔ (j ≤ n ∧ n ≤ limit ∧ i ∣ n - j) := by
  constructor
  · rintro ⟨h1, h2, c, hc⟩
    have h4 : n - j = i * c + i := by
      have h5 : n - j = (n - (j + i)) + i := by omega
      rw [hc] at h5
      exact h5
    exact ⟨by omega, h2, ⟨c + 1, by rw [h4]; ring⟩⟩
  · rintro ⟨h1, h2, c, hc⟩
    have hpos : 1 ≤ n - j := by omega
    have hc1 : 1 ≤ c := by
      rcases Nat.eq_zero_or_pos c with h | h
      · rw [h, Nat.mul_zero] at hc; omega
      · exact h
    obtain ⟨d, rfl⟩ : ∃ d, c = d + 1 := ⟨c - 1, by omega⟩
    rw [Nat.mul_succ] at hc
    have hni : j + i ≤ n := by
      revert hc
      generalize i * d = e
      intro hc
      omega
    refine ⟨hni, h2, ⟨d, ?_⟩⟩
    revert hc
    generalize hgen : i * d = e
    intro hc
    omega

lemma clearMultiples_spec (i limit : Nat) (hi : 1 ≤ i) :
    ∀ fuel j s, fuel = limit + 1 - j → s.bits.length = (s.size + 7) / 8 →
      ((clearMultiples s i j limit).size = s.size ∧
       (clearMultiples s i j limit).bits.length = s.bits.length) ∧
      ∀ n, (clearMultiples s i j limit).is_set n =
        (s.is_set n && !(decide (j ≤ n ∧ n ≤ limit ∧ i ∣ n - j))) := by
  intro fuel
  induction fuel using Nat.strong_induction_on with
  | _ fuel ih =>
    intro j s hfuel hlen
    rw [clearMultiples]
    by_cases hcond : 1 ≤ i ∧ j ≤ limit
    · rw [dif_pos hcond]
      have hlen2 : (s.clear j).bits.length = ((s.clear j).size + 7) / 8 := by
        simp [hlen]
      have hrec := ih (limit + 1 - (j + i)) (by omega) (j + i) (s.clear j) rfl hlen2
      refine ⟨⟨?_, ?_⟩, ?_⟩
      · rw [hrec.1.1]; simp
      · rw [hrec.1.2]; simp
      · intro n
        rw [hrec.2 n, is_set_clear hlen]
        by_cases h1 : n = j
        · subst h1
          simp [hcond.2]
        · have hdec : decide (j + i ≤ n ∧ n ≤ limit ∧ i ∣ n - (j + i)) =
              decide (j ≤ n ∧ n ≤ limit ∧ i ∣ n - j) := by
            rw [decide_eq_decide]
            exact step_dvd_iff i j n limit hi hcond.2 h1
          rw [hdec]
          simp [h1, Bool.and_assoc]
    · rw [dif_neg hcond]
      have hj : limit < j := by omega
      refine ⟨⟨rfl, rfl⟩, ?_⟩
      intro n
      have hno : ¬(j ≤ n ∧ n ≤ limit ∧ i ∣ n - j) := by
        rintro ⟨ha, hb, _⟩
        omega
      simp [hno]

end BitSieve

lemma isqrt_eq_sqrt (n : Nat) : isqrt n = Nat.sqrt n := by
  rw [isqrt]
  by_cases h : n < 2
  · interval_cases n <;> simp
  · simp only [h, if_false]
    have hn1 : 1 ≤ n := by omega
    have hdiv : (n + 1) / 2 = (n + n / n) / 2 := by
      rw [Nat.div_self (by omega)]
    rw [hdiv]
    exact isqrtLoop_eq_sqrt n hn1 n hn1 (Nat.sqrt_le_self n)

/-! ### Correctness of the sieve -/

/-- Numbers eliminated by the sieve iterations before outer index i: n has
a prime factor p below i whose square is at most n. -/
def cleared (i n : Nat) : Prop :=
  ∃ p < i, Nat.Prime p ∧ p * p ≤ n ∧ p ∣ n

instance (i n : Nat) : Decidable (cleared i n) :=
  inferInstanceAs (Decidable (∃ p, p < i ∧ (Nat.Prime p ∧ p * p ≤ n ∧ p ∣ n)))

lemma not_cleared_two (n : Nat) : ¬cleared 2 n := by
  rintro ⟨p, hpi, hp, _, _⟩
  have := hp.two_le
  omega

lemma cleared_succ_of_not_prime {i : Nat} (hnp : ¬Nat.Prime i) (n : Nat) :
    cleared (i + 1) n ↔ cleared i n := by
  constructor
  · rintro ⟨p, hpi, hp, hsq, hdvd⟩
    rcases Nat.lt_or_ge p i with h | h
    · exact ⟨p, h, hp, hsq, hdvd⟩
    · have : p = i := by omega
      subst this
      exact absurd hp hnp
  · rintro ⟨p, hpi, hp, hsq, hdvd⟩
    exact ⟨p, by omega, hp, hsq, hdvd⟩

lemma cleared_succ_of_prime {i : Nat} (hp : Nat.Prime i) (n : Nat) :
    cleared (i + 1) n ↔ cleared i n ∨ (i * i ≤ n ∧ i ∣ n) := by
  constructor
  · rintro ⟨p, hpi, hpp, hsq, hdvd⟩
    rcases Nat.lt_or_ge p i with h | h
    · exact Or.inl ⟨p, h, hpp, hsq, hdvd⟩
    · have : p = i := by omega
      subst this
      exact Or.inr ⟨hsq, hdvd⟩
  · rintro (⟨p, hpi, hpp, hsq, hdvd⟩ | ⟨hsq, hdvd⟩)
    · exact ⟨p, by omega, hpp, hsq, hdvd⟩
    · exact ⟨i, by omega, hp, hsq, hdvd⟩

lemma prime_of_not_cleared_self {i : Nat} (h2 : 2 ≤ i) (h : ¬cleared i i) :
    Nat.Prime i := by
  by_contra hnp
  apply h
  have hpos : 0 < i := by omega
  have hne1 : i ≠ 1 := by omega
  have hp := Nat.minFac_prime hne1
  have hdvd := Nat.minFac_dvd i
  have hsq : i.minFac * i.minFac ≤ i := by
    have := Nat.minFac_sq_le_self hpos hnp
    rwa [Nat.pow_two] at this
  have hlt : i.minFac < i := by
    have hle : i.minFac ≤ i := Nat.le_of_dvd hpos hdvd
    rcases Nat.lt_or_ge i.minFac i with h | h
    · exact h
    · have heq : i.minFac = i := by omega
      exfalso
      exact hnp (Nat.prime_def_minFac.mpr ⟨h2, heq⟩)
  exact ⟨i.minFac, hlt, hp, hsq, hdvd⟩

lemma not_cleared_self_of_prime {i : Nat} (hp : Nat.Prime i) : ¬cleared i i := by
  rintro ⟨p, hpi, hpp, hsq, hdvd⟩
  have := (Nat.prime_dvd_prime_iff_eq hpp hp).mp hdvd
  omega

lemma cleared_iff_of_le {i i2 limit n : Nat} (hn : n ≤ limit)
    (hi : Nat.sqrt limit < i) (hi2 : Nat.sqrt limit < i2) :
    cleared i n ↔ cleared i2 n := by
  have key : ∀ j, Nat.sqrt limit < j → (cleared j n ↔ ∃ p, Nat.Prime p ∧
      p * p ≤ n ∧ p ∣ n) := by
    intro j hj
    constructor
    · rintro ⟨p, _, hpp, hsq, hdvd⟩
      exact ⟨p, hpp, hsq, hdvd⟩
    · rintro ⟨p, hpp, hsq, hdvd⟩
      have hple : p ≤ Nat.sqrt limit := Nat.le_sqrt.mpr (le_trans hsq hn)
      exact ⟨p, by omega, hpp, hsq, hdvd⟩
  rw [key i hi, key i2 hi2]

namespace BitSieve

lemma Inv_clearMultiples (i limit : Nat) :
    ∀ fuel j s, fuel = limit + 1 - j → Inv s → Inv (clearMultiples s i j limit) := by
  intro fuel
  induction fuel using Nat.strong_induction_on with
  | _ fuel ih =>
    intro j s hfuel hInv
    rw [clearMultiples]
    by_cases hcond : 1 ≤ i ∧ j ≤ limit
    · rw [dif_pos hcond]
      exact ih (limit + 1 - (j + i)) (by omega) (j + i) (s.clear j) rfl (hInv.clear j)
    · rw [dif_neg hcond]
      exact hInv

lemma sieveLoop_spec (limit : Nat) :
    ∀ fuel i s, fuel = Nat.sqrt limit + 1 - i → 2 ≤ i →
      s.size = limit + 1 → Inv s →
      (∀ n, s.is_set n = decide (2 ≤ n ∧ n ≤ limit ∧ ¬cleared i n)) →
      ((s.sieveLoop i (Nat.sqrt limit) limit).size = s.size ∧
        Inv (s.sieveLoop i (Nat.sqrt limit) limit) ∧
       ∀ n, (s.sieveLoop i (Nat.sqrt limit) limit).is_set n =
         decide (2 ≤ n ∧ n ≤ limit ∧ ¬cleared (Nat.sqrt limit + 1) n)) := by
  intro fuel
  induction fuel using Nat.strong_induction_on with
  | _ fuel ih =>
    intro i s hfuel h2i hsize hInv hinv
    rw [sieveLoop]
    by_cases hcond : i ≤ Nat.sqrt limit
    · rw [if_pos hcond]
      by_cases hset : s.is_set i
      · rw [if_pos hset]
        -- the index i survived all previous iterations, hence it is prime
        have hiprop : 2 ≤ i ∧ i ≤ limit ∧ ¬cleared i i := by
          have := hinv i
          rw [hset] at this
          exact of_decide_eq_true this.symm
        have hiprime : Nat.Prime i := prime_of_not_cleared_self h2i hiprop.2.2
        set s2 := s.clearMultiples i (i * i) limit with hs2
        have hcm := clearMultiples_spec i limit (by omega) (limit + 1 - i * i)
          (i * i) s rfl hInv.1
        have hs2size : s2.size = s.size := hcm.1.1
        have hs2Inv : Inv s2 := Inv_clearMultiples i limit (limit + 1 - i * i)
          (i * i) s rfl hInv
        have hs2inv : ∀ n, s2.is_set n =
            decide (2 ≤ n ∧ n ≤ limit ∧ ¬cleared (i + 1) n) := by
          intro n
          rw [hcm.2 n, hinv n]
          rw [show (!(decide (i * i ≤ n ∧ n ≤ limit ∧ i ∣ n - i * i))) =
            decide (¬(i * i ≤ n ∧ n ≤ limit ∧ i ∣ n - i * i)) from by simp]
          rw [← Bool.decide_and, decide_eq_decide]
          have hdvd_iff : i * i ≤ n → (i ∣ n - i * i ↔ i ∣ n) := by
            intro hle
            constructor
            · intro h
              have := Nat.dvd_add h (Dvd.intro i rfl)
              rwa [Nat.sub_add_cancel hle] at this
            · intro h
              exact Nat.dvd_sub' h (Dvd.intro i rfl)
          rw [cleared_succ_of_prime hiprime]
          constructor
          · rintro ⟨⟨hn2, hnl, hnc⟩, hnot⟩
            refine ⟨hn2, hnl, ?_⟩
            rintro (h | ⟨hsq, hdvd⟩)
            · exact hnc h
            · exact hnot ⟨hsq, hnl, (hdvd_iff hsq).mpr hdvd⟩
          · rintro ⟨hn2, hnl, hnc⟩
            refine ⟨⟨hn2, hnl, fun h => hnc (Or.inl h)⟩, ?_⟩
            rintro ⟨hsq, _, hdvd⟩
            exact hnc (Or.inr ⟨hsq, (hdvd_iff hsq).mp hdvd⟩)
        have hrec := ih (Nat.sqrt limit + 1 - (i + 1)) (by omega) (i + 1) s2
          rfl (by omega) (by rw [hs2size, hsize]) hs2Inv hs2inv
        exact ⟨hrec.1.trans hs2size, hrec.2.1, hrec.2.2⟩
      · rw [if_neg hset]
        -- the index i was already eliminated, hence it is not prime
        have hiprime : ¬Nat.Prime i := by
          intro hp
          have hii : i ≤ limit := le_trans hcond (Nat.sqrt_le_self limit)
          have : s.is_set i = true := by
            rw [hinv i]
            simp only [decide_eq_true_eq]
            exact ⟨h2i, hii, not_cleared_self_of_prime hp⟩
          rw [this] at hset
          exact hset rfl
        have hinv2 : ∀ n, s.is_set n =
            decide (2 ≤ n ∧ n ≤ limit ∧ ¬cleared (i + 1) n) := by
          intro n
          rw [hinv n, decide_eq_decide, cleared_succ_of_not_prime hiprime]
        exact ih (Nat.sqrt limit + 1 - (i + 1)) (by omega) (i + 1) s
          rfl (by omega) hsize hInv hinv2
    · rw [if_neg hcond]
      refine ⟨rfl, hInv, ?_⟩
      intro n
      rw [hinv n, decide_eq_decide]
      constructor
      · rintro ⟨hn2, hnl, hnc⟩
        exact ⟨hn2, hnl, fun h =>
          hnc ((cleared_iff_of_le hnl (by omega) (by omega)).mpr h)⟩
      · rintro ⟨hn2, hnl, hnc⟩
        exact ⟨hn2, hnl, fun h =>
          hnc ((cleared_iff_of_le hnl (by omega) (by omega)).mp h)⟩

lemma run_sieve_new_spec (limit : Nat) :
    ((new limit).run_sieve).size = limit + 1 ∧ Inv ((new limit).run_sieve) ∧
    ∀ n, ((new limit).run_sieve).is_set n = decide (Nat.Prime n ∧ n ≤ limit) := by
  have h1 : (new limit).size - 1 = limit := by rw [size_new]; omega
  have hrun : (new limit).run_sieve =
      (new limit).sieveLoop 2 (Nat.sqrt limit) limit := by
    simp only [run_sieve]
    rw [h1, isqrt_eq_sqrt]
  have hinv0 : ∀ n, (new limit).is_set n =
      decide (2 ≤ n ∧ n ≤ limit ∧ ¬cleared 2 n) := by
    intro n
    rw [is_set_new, decide_eq_decide]
    constructor
    · rintro ⟨ha, hb⟩
      exact ⟨ha, by omega, not_cleared_two n⟩
    · rintro ⟨ha, hb, _⟩
      exact ⟨ha, by omega⟩
  have hmain := sieveLoop_spec limit (Nat.sqrt limit + 1 - 2) 2 (new limit)
    rfl (by omega) (size_new limit) (Inv_new limit) hinv0
  rw [hrun]
  refine ⟨hmain.1.trans (size_new limit), hmain.2.1, ?_⟩
  intro n
  rw [hmain.2.2 n, decide_eq_decide]
  constructor
  · rintro ⟨hn2, hnl, hnc⟩
    constructor
    · by_contra hnp
      apply hnc
      have hpos : 0 < n := by omega
      have hne1 : n ≠ 1 := by omega
      have hp := Nat.minFac_prime hne1
      have hdvd := Nat.minFac_dvd n
      have hsq : n.minFac * n.minFac ≤ n := by
        have := Nat.minFac_sq_le_self hpos hnp
        rwa [Nat.pow_two] at this
      have hple : n.minFac ≤ Nat.sqrt limit :=
        Nat.le_sqrt.mpr (le_trans hsq hnl)
      exact ⟨n.minFac, by omega, hp, hsq, hdvd⟩
    · exact hnl
  · rintro ⟨hp, hnl⟩
    refine ⟨hp.two_le, hnl, ?_⟩
    rintro ⟨p, hpi, hpp, hsq, hdvd⟩
    have := (Nat.prime_dvd_prime_iff_eq hpp hp).mp hdvd
    subst this
    have := hp.two_le
    nlinarith [hsq]

end BitSieve

/-! ### Correctness of the trial-division primality test -/

lemma scanOdd_zero (k d : Nat) : scanOdd k 0 d = true := rfl

lemma scanOdd_succ (k fuel d : Nat) : scanOdd k (fuel + 1) d =
    (if k < d * d then true
     else if k % d == 0 then false
     else scanOdd k fuel (d + 2)) := rfl

lemma scanOdd_iff (k : Nat) (hk2 : k % 2 = 1) :
    ∀ fuel d, 3 ≤ d → d % 2 = 1 → k < (d + 2 * fuel) * (d + 2 * fuel) →
      (scanOdd k fuel d = true ↔ ∀ e, d ≤ e → e * e ≤ k → ¬e ∣ k) := by
  intro fuel
  induction fuel with
  | zero =>
    intro d hd3 hdo hbound
    simp only [Nat.mul_zero, Nat.add_zero] at hbound
    simp only [scanOdd_zero, true_iff]
    intro e he hesq hdvd
    have hde : d * d ≤ e * e := Nat.mul_le_mul he he
    exact absurd (lt_of_lt_of_le (lt_of_lt_of_le hbound hde) hesq) (lt_irrefl k)
  | succ fuel ih =>
    intro d hd3 hdo hbound
    rw [scanOdd_succ]
    by_cases h1 : k < d * d
    · rw [if_pos h1]
      simp only [true_iff]
      intro e he hesq hdvd
      have hde : d * d ≤ e * e := Nat.mul_le_mul he he
      exact absurd (lt_of_lt_of_le (lt_of_lt_of_le h1 hde) hesq) (lt_irrefl k)
    · rw [if_neg h1]
      by_cases h2 : k % d = 0
      · rw [if_pos (by simpa using h2)]
        exact iff_of_false (by simp)
          (fun hall => hall d (le_refl d) (by omega)
            (Nat.dvd_of_mod_eq_zero h2))
      · rw [if_neg (by simpa using h2)]
        have hbound2 : k < ((d + 2) + 2 * fuel) * ((d + 2) + 2 * fuel) := by
          have harith : (d + 2) + 2 * fuel = d + 2 * (fuel + 1) := by ring
          rw [harith]
          exact hbound
        rw [ih (d + 2) (by omega) (by omega) hbound2]
        constructor
        · intro h e he hesq hdvd
          rcases Nat.lt_or_ge e (d + 2) with hlt | hge
          · rcases Nat.eq_or_lt_of_le he with heq | hlt2
            · subst heq
              exact h2 (Nat.mod_eq_zero_of_dvd hdvd)
            · have he1 : e = d + 1 := by omega
              have h2e : (2 : Nat) ∣ e := by omega
              have h2k : (2 : Nat) ∣ k := dvd_trans h2e hdvd
              omega
          · exact h e hge hesq hdvd
        · intro h e he hesq hdvd
          exact h e (by omega) hesq hdvd

lemma isPrime_iff (k : Nat) (hb : k ≤ 23408) : isPrime k = true ↔ Nat.Prime k := by
  rw [isPrime]
  by_cases h1 : k < 2
  · rw [if_pos h1]
    simp only [Bool.false_eq_true, false_iff]
    intro hp
    exact absurd hp.two_le (by omega)
  · rw [if_neg h1]
    by_cases h2 : k = 2
    · subst h2
      simp [Nat.prime_two]
    · rw [if_neg (by simpa using h2)]
      by_cases h3 : k % 2 = 0
      · rw [if_pos (by simpa using h3)]
        simp only [Bool.false_eq_true, false_iff]
        intro hp
        have := Nat.Prime.eq_one_or_self_of_dvd hp 2 (Nat.dvd_of_mod_eq_zero h3)
        omega
      · rw [if_neg (by simpa using h3)]
        have hk2 : k % 2 = 1 := by omega
        rw [scanOdd_iff k hk2 75 3 (by omega) (by omega)
          (by omega : k < (3 + 2 * 75) * (3 + 2 * 75))]
        rw [Nat.prime_def_le_sqrt]
        constructor
        · intro h
          refine ⟨by omega, ?_⟩
          intro m hm2 hmsq hdvd
          rcases Nat.eq_or_lt_of_le hm2 with heq | hlt
          · rw [← heq] at hdvd
            have := Nat.mod_eq_zero_of_dvd hdvd
            omega
          · exact h m (by omega) (Nat.le_sqrt.mp hmsq) hdvd
        · rintro ⟨hk2le, hall⟩ e he3 hesq hdvd
          exact hall e (by omega) (Nat.le_sqrt.mpr hesq) hdvd

/-! ### The counting and scanning loops -/

namespace BitSieve

/-- Running count of set bits below m, the quantity the count variable of
the scanning loops tracks. -/
def setCount (s : BitSieve) (m : Nat) : Nat :=
  (List.range m).countP (fun i => s.is_set i)

lemma setCount_zero (s : BitSieve) : setCount s 0 = 0 := rfl

lemma setCount_succ (s : BitSieve) (m : Nat) :
    setCount s (m + 1) = setCount s m + (if s.is_set m then 1 else 0) := by
  rw [setCount, setCount, List.range_succ, List.countP_append]
  simp [List.countP_cons]

lemma setCount_mono (s : BitSieve) {a b : Nat} (h : a ≤ b) :
    setCount s a ≤ setCount s b := by
  induction b, h using Nat.le_induction with
  | base => exact Nat.le_refl _
  | succ b hb ih =>
    rw [setCount_succ]
    split <;> omega

lemma count_primes_eq_setCount (s : BitSieve) :
    s.count_primes = setCount s s.size := rfl

lemma nthLoop_eq_some (s : BitSieve) (n : Nat) :
    ∀ fuel i c p, fuel = s.size - i → c = setCount s i →
      s.nthLoop n i c = some p →
      i ≤ p ∧ p < s.size ∧ s.is_set p = true ∧ setCount s (p + 1) = n := by
  intro fuel
  induction fuel using Nat.strong_induction_on with
  | _ fuel ih =>
    intro i c p hfuel hc heq
    rw [nthLoop] at heq
    by_cases hi : i < s.size
    · rw [if_pos hi] at heq
      by_cases hs : s.is_set i
      · rw [if_pos hs] at heq
        by_cases hcn : c + 1 = n
        · rw [if_pos hcn] at heq
          have hp : p = i := by
            injection heq with h
            omega
          subst hp
          refine ⟨le_refl p, hi, hs, ?_⟩
          rw [setCount_succ, if_pos hs, ← hc, hcn]
        · rw [if_neg hcn] at heq
          have hc2 : c + 1 = setCount s (i + 1) := by
            rw [setCount_succ, if_pos hs, hc]
          have hrec := ih (s.size - (i + 1)) (by omega) (i + 1) (c + 1) p rfl
            hc2 heq
          exact ⟨by omega, hrec.2.1, hrec.2.2.1, hrec.2.2.2⟩
      · rw [if_neg hs] at heq
        have hc2 : c = setCount s (i + 1) := by
          rw [setCount_succ, if_neg hs, hc]
          omega
        have hrec := ih (s.size - (i + 1)) (by omega) (i + 1) c p rfl
          hc2 heq
        exact ⟨by omega, hrec.2.1, hrec.2.2.1, hrec.2.2.2⟩
    · rw [if_neg hi] at heq
      exact absurd heq (by simp)

lemma nthLoop_eq_some_of (s : BitSieve) (n p : Nat) (hps : p < s.size)
    (hset : s.is_set p = true) (hn : setCount s (p + 1) = n) :
    ∀ fuel i c, fuel = s.size - i → i ≤ p → c = setCount s i →
      s.nthLoop n i c = some p := by
  intro fuel
  induction fuel using Nat.strong_induction_on with
  | _ fuel ih =>
    intro i c hfuel hip hc
    rw [nthLoop]
    have hi : i < s.size := by omega
    rw [if_pos hi]
    rcases Nat.eq_or_lt_of_le hip with heq | hlt
    · subst heq
      rw [if_pos hset, if_pos (by rw [hc, ← hn, setCount_succ, if_pos hset])]
    · by_cases hs : s.is_set i
      · rw [if_pos hs]
        have hc2 : c + 1 = setCount s (i + 1) := by
          rw [setCount_succ, if_pos hs, hc]
        have hne : c + 1 ≠ n := by
          have h1 : setCount s (i + 1) ≤ setCount s p := setCount_mono s (by omega)
          have h2 : setCount s (p + 1) = setCount s p + 1 := by
            rw [setCount_succ, if_pos hset]
          omega
        rw [if_neg hne]
        exact ih (s.size - (i + 1)) (by omega) (i + 1) (c + 1) rfl (by omega)
          hc2
      · rw [if_neg hs]
        have hc2 : c = setCount s (i + 1) := by
          rw [setCount_succ, if_neg hs, hc]
          omega
        exact ih (s.size - (i + 1)) (by omega) (i + 1) c rfl (by omega) hc2

lemma nth_prime_eq_some_iff (s : BitSieve) (n p : Nat) (hn : n ≠ 0) :
    s.nth_prime n = some p ↔
      p < s.size ∧ s.is_set p = true ∧ setCount s (p + 1) = n := by
  rw [nth_prime, if_neg hn]
  constructor
  · intro h
    have := nthLoop_eq_some s n (s.size - 0) 0 0 p rfl rfl h
    exact ⟨this.2.1, this.2.2.1, this.2.2.2⟩
  · rintro ⟨h1, h2, h3⟩
    exact nthLoop_eq_some_of s n p h1 h2 h3 (s.size - 0) 0 0 rfl (by omega) rfl

end BitSieve

/-! ### The public facades -/

set_option maxRecDepth 1000000

lemma run_sieve_is_set_eq (limit n : Nat) :
    ((BitSieve.new limit).run_sieve).is_set n = decide (Nat.Prime n ∧ n ≤ limit) :=
  (BitSieve.run_sieve_new_spec limit).2.2 n

lemma run_sieve_size_eq (limit : Nat) :
    ((BitSieve.new limit).run_sieve).size = limit + 1 :=
  (BitSieve.run_sieve_new_spec limit).1

lemma setCount_run_sieve (limit m : Nat) (hm : m ≤ limit + 1) :
    BitSieve.setCount ((BitSieve.new limit).run_sieve) m = Nat.count Nat.Prime m := by
  rw [BitSieve.setCount, Nat.count]
  apply List.countP_congr
  intro x hx
  rw [List.mem_range] at hx
  rw [run_sieve_is_set_eq]
  simp only [decide_eq_true_eq]
  constructor
  · rintro ⟨h, _⟩
    exact h
  · intro h
    exact ⟨h, by omega⟩

lemma count_primes_eq_count (limit : Nat) :
    count_primes limit = Nat.count Nat.Prime (limit + 1) := by
  by_cases h : limit < 2
  · rw [count_primes, if_pos h]
    interval_cases limit
    · rw [show (0 + 1) = 1 from rfl, Nat.count_succ]
      simp [Nat.not_prime_zero]
    · rw [show (1 + 1) = 2 from rfl, Nat.count_succ, Nat.count_succ]
      simp [Nat.not_prime_zero, Nat.not_prime_one]
  · rw [count_primes, if_neg h, BitSieve.count_primes_eq_setCount,
      run_sieve_size_eq, setCount_run_sieve limit (limit + 1) (le_refl _)]

lemma nth_prime_facade_iff (n p : Nat) (hn : n ≠ 0) :
    nth_prime n = some p ↔
      (Nat.Prime p ∧ p ≤ estimate_nth_prime_upper_bound n ∧
       Nat.count Nat.Prime (p + 1) = n) := by
  rw [nth_prime, if_neg hn]
  rw [BitSieve.nth_prime_eq_some_iff _ _ _ hn, run_sieve_size_eq]
  constructor
  · rintro ⟨h1, h2, h3⟩
    rw [run_sieve_is_set_eq] at h2
    simp only [decide_eq_true_eq] at h2
    refine ⟨h2.1, h2.2, ?_⟩
    rw [← setCount_run_sieve (estimate_nth_prime_upper_bound n) (p + 1) (by omega)]
    exact h3
  · rintro ⟨h1, h2, h3⟩
    refine ⟨by omega, ?_, ?_⟩
    · rw [run_sieve_is_set_eq]
      simp only [decide_eq_true_eq]
      exact ⟨h1, h2⟩
    · rw [setCount_run_sieve (estimate_nth_prime_upper_bound n) (p + 1) (by omega)]
      exact h3

lemma count_eq_isPrime_count (m : Nat) (hm : m ≤ 23408) :
    Nat.count Nat.Prime m = (List.range m).countP (fun k => isPrime k) := by
  rw [Nat.count]
  apply List.countP_congr
  intro x hx
  rw [List.mem_range] at hx
  rw [decide_eq_true_eq, isPrime_iff x (by omega)]

/-! ### The estimator -/

lemma bitLen_le (k : Nat) : ∀ n, n < 2 ^ k → bitLen n ≤ k := by
  induction k with
  | zero =>
    intro n hn
    have : n = 0 := by omega
    subst this
    rw [bitLen]
    simp
  | succ k ih =>
    intro n hn
    by_cases h0 : n = 0
    · subst h0
      rw [bitLen]
      simp
    · rw [bitLen, if_neg h0]
      have hdiv : n / 2 < 2 ^ k := by
        rw [Nat.pow_succ] at hn
        omega
      exact Nat.succ_le_succ (ih (n / 2) hdiv)

lemma bitLen_eq_log2_succ : ∀ n, 1 ≤ n → bitLen n = Nat.log2 n + 1 := by
  intro n
  induction n using Nat.strong_induction_on with
  | _ n ih =>
    intro hn
    rw [bitLen, if_neg (by omega), Nat.log2]
    by_cases h2 : n ≥ 2
    · rw [if_pos h2, ih (n / 2) (by omega) (by omega)]
    · have : n = 1 := by omega
      subst this
      rw [if_neg h2, bitLen]
      simp

lemma estimate_eq_of_ge (n : Nat) (h6 : 6 ≤ n) (h64 : n < 2 ^ 64) :
    estimate_nth_prime_upper_bound n = n * (Nat.log2 n + 1) * 2 := by
  rw [estimate_nth_prime_upper_bound, if_neg (by omega)]
  have hle : bitLen n ≤ 64 := bitLen_le 64 n h64
  have hlen : 64 - leading_zeros n = bitLen n := by
    rw [leading_zeros]
    omega
  rw [hlen, bitLen_eq_log2_succ n (by omega)]

lemma bitLen_100 : bitLen 100 = 7 := by
  rw [bitLen, if_neg (by omega)]
  rw [show (100 : Nat) / 2 = 50 from rfl, bitLen, if_neg (by omega)]
  rw [show (50 : Nat) / 2 = 25 from rfl, bitLen, if_neg (by omega)]
  rw [show (25 : Nat) / 2 = 12 from rfl, bitLen, if_neg (by omega)]
  rw [show (12 : Nat) / 2 = 6 from rfl, bitLen, if_neg (by omega)]
  rw [show (6 : Nat) / 2 = 3 from rfl, bitLen, if_neg (by omega)]
  rw [show (3 : Nat) / 2 = 1 from rfl, bitLen, if_neg (by omega)]
  rw [show (1 : Nat) / 2 = 0 from rfl, bitLen, if_pos rfl]

lemma bitLen_1000 : bitLen 1000 = 10 := by
  rw [bitLen, if_neg (by omega)]
  rw [show (1000 : Nat) / 2 = 500 from rfl, bitLen, if_neg (by omega)]
  rw [show (500 : Nat) / 2 = 250 from rfl, bitLen, if_neg (by omega)]
  rw [show (250 : Nat) / 2 = 125 from rfl, bitLen, if_neg (by omega)]
  rw [show (125 : Nat) / 2 = 62 from rfl, bitLen, if_neg (by omega)]
  rw [show (62 : Nat) / 2 = 31 from rfl, bitLen, if_neg (by omega)]
  rw [show (31 : Nat) / 2 = 15 from rfl, bitLen, if_neg (by omega)]
  rw [show (15 : Nat) / 2 = 7 from rfl, bitLen, if_neg (by omega)]
  rw [show (7 : Nat) / 2 = 3 from rfl, bitLen, if_neg (by omega)]
  rw [show (3 : Nat) / 2 = 1 from rfl, bitLen, if_neg (by omega)]
  rw [show (1 : Nat) / 2 = 0 from rfl, bitLen, if_pos rfl]

lemma estimate_100 : estimate_nth_prime_upper_bound 100 = 1400 := by
  rw [estimate_nth_prime_upper_bound, if_neg (by omega)]
  show 100 * (64 - leading_zeros 100) * 2 = 1400
  rw [leading_zeros, bitLen_100]

lemma estimate_1000 : estimate_nth_prime_upper_bound 1000 = 20000 := by
  rw [estimate_nth_prime_upper_bound, if_neg (by omega)]
  show 1000 * (64 - leading_zeros 1000) * 2 = 20000
  rw [leading_zeros, bitLen_1000]

/-! ### Concrete nth-prime values -/

lemma prime_of_isPrime {p : Nat} (hb : p ≤ 23408) (h : isPrime p = true) :
    Nat.Prime p :=
  (isPrime_iff p hb).mp h

lemma primeCountFrom_zero (a : Nat) : primeCountFrom a 0 = 0 := rfl

lemma primeCountFrom_succ (a n : Nat) :
    primeCountFrom a (n + 1) =
      primeCountFrom a n + (if isPrime (a + n) then 1 else 0) := rfl

lemma primeCountFrom_eq_countP (a : Nat) :
    ∀ n, primeCountFrom a n = (List.range' a n).countP (fun k => isPrime k) := by
  intro n
  induction n with
  | zero => rfl
  | succ n ih =>
    rw [primeCountFrom_succ, ih, List.range'_1_concat, List.countP_append]
    simp [List.countP_cons]

lemma primeCountFrom_add (a m n : Nat) :
    primeCountFrom a (m + n) = primeCountFrom a m + primeCountFrom (a + m) n := by
  induction n with
  | zero => rfl
  | succ n ih =>
    rw [show m + (n + 1) = (m + n) + 1 from rfl, primeCountFrom_succ, ih,
      primeCountFrom_succ, ← Nat.add_assoc a m n]
    exact Nat.add_assoc _ _ _

lemma count_542 : Nat.count Nat.Prime 542 = 100 := by
  rw [count_eq_isPrime_count 542 (by omega), List.range_eq_range',
    ← primeCountFrom_eq_countP 0 542]
  decide

lemma count_7920 : Nat.count Nat.Prime 7920 = 1000 := by
  rw [count_eq_isPrime_count 7920 (by omega), List.range_eq_range',
    ← primeCountFrom_eq_countP 0 7920]
  rw [show (7920 : Nat) = 1320 + 6600 from rfl, primeCountFrom_add 0 1320 6600]
  rw [show primeCountFrom 0 1320 = 215 from by decide]
  rw [show ((0 : Nat) + 1320) = 1320 from rfl]
  rw [show (6600 : Nat) = 1320 + 5280 from rfl, primeCountFrom_add 1320 1320 5280]
  rw [show primeCountFrom 1320 1320 = 167 from by decide]
  rw [show ((1320 : Nat) + 1320) = 2640 from rfl]
  rw [show (5280 : Nat) = 1320 + 3960 from rfl, primeCountFrom_add 2640 1320 3960]
  rw [show primeCountFrom 2640 1320 = 166 from by decide]
  rw [show ((2640 : Nat) + 1320) = 3960 from rfl]
  rw [show (3960 : Nat) = 1320 + 2640 from rfl, primeCountFrom_add 3960 1320 2640]
  rw [show primeCountFrom 3960 1320 = 152 from by decide]
  rw [show ((3960 : Nat) + 1320) = 5280 from rfl]
  rw [show (2640 : Nat) = 1320 + 1320 from rfl, primeCountFrom_add 5280 1320 1320]
  rw [show primeCountFrom 5280 1320 = 153 from by decide]
  rw [show ((5280 : Nat) + 1320) = 6600 from rfl]
  rw [show primeCountFrom 6600 1320 = 147 from by decide]

lemma nth_prime_0 : nth_prime 0 = none := rfl

lemma nth_prime_1 : nth_prime 1 = some 2 := by
  rw [nth_prime_facade_iff 1 2 (by omega)]
  refine ⟨prime_of_isPrime (by omega) (by decide), by rw [show estimate_nth_prime_upper_bound 1 = 15 from rfl]; omega, ?_⟩
  rw [count_eq_isPrime_count _ (by omega)]
  decide

lemma nth_prime_2 : nth_prime 2 = some 3 := by
  rw [nth_prime_facade_iff 2 3 (by omega)]
  refine ⟨prime_of_isPrime (by omega) (by decide), by rw [show estimate_nth_prime_upper_bound 2 = 15 from rfl]; omega, ?_⟩
  rw [count_eq_isPrime_count _ (by omega)]
  decide

lemma nth_prime_3 : nth_prime 3 = some 5 := by
  rw [nth_prime_facade_iff 3 5 (by omega)]
  refine ⟨prime_of_isPrime (by omega) (by decide), by rw [show estimate_nth_prime_upper_bound 3 = 15 from rfl]; omega, ?_⟩
  rw [count_eq_isPrime_count _ (by omega)]
  decide

lemma nth_prime_4 : nth_prime 4 = some 7 := by
  rw [nth_prime_facade_iff 4 7 (by omega)]
  refine ⟨prime_of_isPrime (by omega) (by decide), by rw [show estimate_nth_prime_upper_bound 4 = 15 from rfl]; omega, ?_⟩
  rw [count_eq_isPrime_count _ (by omega)]
  decide

lemma nth_prime_5 : nth_prime 5 = some 11 := by
  rw [nth_prime_facade_iff 5 11 (by omega)]
  refine ⟨prime_of_isPrime (by omega) (by decide), by rw [show estimate_nth_prime_upper_bound 5 = 15 from rfl]; omega, ?_⟩
  rw [count_eq_isPrime_count _ (by omega)]
  decide

lemma nth_prime_100 : nth_prime 100 = some 541 := by
  rw [nth_prime_facade_iff 100 541 (by omega)]
  exact ⟨prime_of_isPrime (by omega) (by decide), by rw [estimate_100]; omega, count_542⟩

lemma nth_prime_1000 : nth_prime 1000 = some 7919 := by
  rw [nth_prime_facade_iff 1000 7919 (by omega)]
  exact ⟨prime_of_isPrime (by omega) (by decide), by rw [estimate_1000]; omega, count_7920⟩

/-! ### Idempotence of the sieve run -/

namespace BitSieve

lemma clear_of_is_set_false {s : BitSieve} (hInv : Inv s) {m : Nat}
    (h : s.is_set m = false) : s.clear m = s := by
  rw [clear]
  by_cases hm : m ≥ s.size
  · rw [if_pos hm]
  · rw [if_neg hm]
    push_neg at hm
    have hlen := idx_lt_length hInv.1 hm
    have hb : s.bits.getD (m / 8) 0 < 256 := getD_lt_256 hInv _
    have h256 : ∀ i, 8 ≤ i → (256 : Nat) ≤ 2 ^ i := by
      intro i hi
      calc (256 : Nat) = 2 ^ 8 := rfl
      _ ≤ 2 ^ i := Nat.pow_le_pow_right (by omega) hi
    have htb : (s.bits.getD (m / 8) 0).testBit (m % 8) = false := by
      rw [is_set_eq_testBit hm] at h
      exact h
    have hbyte : (s.bits.getD (m / 8) 0) &&& (255 ^^^ (1 <<< (m % 8))) =
        s.bits.getD (m / 8) 0 := by
      apply Nat.eq_of_testBit_eq
      intro i
      by_cases hi : i < 8
      · rw [testBit_clearByte _ _ _ (Nat.mod_lt _ (by omega)) hi]
        by_cases hieq : m % 8 = i
        · rw [← hieq, htb]
          simp
        · simp [hieq]
      · have h1 : (s.bits.getD (m / 8) 0).testBit i = false :=
          Nat.testBit_lt_two_pow (lt_of_lt_of_le hb (h256 i (by omega)))
        have h2 : ((s.bits.getD (m / 8) 0) &&& (255 ^^^ (1 <<< (m % 8)))).testBit i
            = false :=
          Nat.testBit_lt_two_pow (lt_of_le_of_lt Nat.and_le_left
            (lt_of_lt_of_le hb (h256 i (by omega))))
        rw [h1, h2]
    have hset : s.bits.set (m / 8)
        ((s.bits.getD (m / 8) 0) &&& (255 ^^^ (1 <<< (m % 8)))) = s.bits := by
      rw [hbyte]
      apply List.ext_getElem?
      intro k
      rw [List.getElem?_set]
      by_cases hk : m / 8 = k
      · rw [if_pos hk, if_pos (by omega : m / 8 < s.bits.length), ← hk]
        rw [List.getD_eq_getElem?_getD, List.getElem?_eq_getElem hlen]
        rfl
      · rw [if_neg hk]
    show { s with bits := s.bits.set (m / 8) ((s.bits.getD (m / 8) 0) &&& (255 ^^^ (1 <<< (m % 8)))) } = s
    rw [hset]

lemma clearMultiples_eq_self (i limit : Nat) :
    ∀ fuel j s, fuel = limit + 1 - j → Inv s →
      (∀ m, j ≤ m → m ≤ limit → i ∣ m - j → s.is_set m = false) →
      clearMultiples s i j limit = s := by
  intro fuel
  induction fuel using Nat.strong_induction_on with
  | _ fuel ih =>
    intro j s hfuel hInv hall
    rw [clearMultiples]
    by_cases hcond : 1 ≤ i ∧ j ≤ limit
    · rw [dif_pos hcond]
      have hj : s.is_set j = false := hall j (le_refl j) hcond.2 (by simp)
      rw [clear_of_is_set_false hInv hj]
      apply ih (limit + 1 - (j + i)) (by omega) (j + i) s rfl hInv
      intro m h1 h2 h3
      apply hall m (by omega) h2
      obtain ⟨c, hc⟩ := h3
      have h4 : m - j = i * c + i := by
        have h5 : m - j = (m - (j + i)) + i := by omega
        rw [hc] at h5
        exact h5
      exact ⟨c + 1, by rw [h4]; ring⟩
    · rw [dif_neg hcond]

lemma sieveLoop_eq_self (limit q : Nat) :
    ∀ fuel i s, fuel = q + 1 - i → Inv s → 2 ≤ i →
      (∀ a m, 2 ≤ a → s.is_set a = true → a * a ≤ m → m ≤ limit → a ∣ m →
        s.is_set m = false) →
      s.sieveLoop i q limit = s := by
  intro fuel
  induction fuel using Nat.strong_induction_on with
  | _ fuel ih =>
    intro i s hfuel hInv h2i hall
    rw [sieveLoop]
    by_cases hcond : i ≤ q
    · rw [if_pos hcond]
      by_cases hset : s.is_set i
      · rw [if_pos hset]
        have hcm : s.clearMultiples i (i * i) limit = s := by
          apply clearMultiples_eq_self i limit (limit + 1 - i * i) (i * i) s rfl
            hInv
          intro m h1 h2 h3
          apply hall i m h2i hset h1 h2
          have := Nat.dvd_add h3 (Dvd.intro i rfl)
          rwa [Nat.sub_add_cancel h1] at this
        rw [hcm]
        exact ih (q + 1 - (i + 1)) (by omega) (i + 1) s rfl hInv (by omega) hall
      · rw [if_neg hset]
        exact ih (q + 1 - (i + 1)) (by omega) (i + 1) s rfl hInv (by omega) hall
    · rw [if_neg hcond]

lemma run_sieve_run_sieve (limit : Nat) :
    ((new limit).run_sieve).run_sieve = (new limit).run_sieve := by
  have hInv : Inv ((new limit).run_sieve) := (run_sieve_new_spec limit).2.1
  have hsize : ((new limit).run_sieve).size = limit + 1 :=
    (run_sieve_new_spec limit).1
  have hchar := (run_sieve_new_spec limit).2.2
  show ((new limit).run_sieve).sieveLoop 2
    (isqrt (((new limit).run_sieve).size - 1)) (((new limit).run_sieve).size - 1)
    = (new limit).run_sieve
  rw [show ((new limit).run_sieve).size - 1 = limit from by omega, isqrt_eq_sqrt]
  apply sieveLoop_eq_self limit (Nat.sqrt limit) (Nat.sqrt limit + 1 - 2) 2
    ((new limit).run_sieve) rfl hInv (le_refl 2)
  intro a m ha2 haset hsq hml hdvd
  rw [hchar] at haset
  simp only [decide_eq_true_eq] at haset
  have ham : a < m := by
    have : a * 2 ≤ a * a := Nat.mul_le_mul_left a ha2
    omega
  rw [hchar, decide_eq_false_iff_not]
  rintro ⟨hpm, _⟩
  rcases (Nat.Prime.eq_one_or_self_of_dvd hpm a hdvd) with h | h
  · omega
  · omega

end BitSieve

/-! ### Claim theorems -/

/-- C1: for every nonnegative limit, the facade count_primes returns
exactly the number of primes p with p at most limit, and for limit below 2
it returns 0 immediately. -/
theorem count_primes_spec (limit : Nat) :
    count_primes limit = ((Finset.range (limit + 1)).filter Nat.Prime).card ∧
    (limit < 2 → count_primes limit = 0) := by
  constructor
  · rw [count_primes_eq_count, Nat.count_eq_card_filter_range]
  · intro h
    rw [count_primes, if_pos h]

/-- Witness for C1 at limit = 1. -/
theorem count_primes_spec_witness :
    count_primes 1 = ((Finset.range 2).filter Nat.Prime).card ∧
    count_primes 1 = 0 :=
  ⟨(count_primes_spec 1).1, (count_primes_spec 1).2 (by omega)⟩

/-- C2: after run_sieve on a sieve built by new limit, whose size is
limit + 1, bit n is set if and only if n is prime, for every n below the
size. -/
theorem run_sieve_prime_iff (limit n : Nat) (hn : n < limit + 1) :
    ((BitSieve.new limit).run_sieve).size = limit + 1 ∧
    (((BitSieve.new limit).run_sieve).is_set n = true ↔ Nat.Prime n) := by
  refine ⟨run_sieve_size_eq limit, ?_⟩
  rw [run_sieve_is_set_eq]
  simp only [decide_eq_true_eq]
  constructor
  · rintro ⟨h, _⟩
    exact h
  · intro h
    exact ⟨h, by omega⟩

/-- Witness for C2 at limit = 10, n = 7. -/
theorem run_sieve_prime_iff_witness :
    7 < 10 + 1 ∧ (((BitSieve.new 10).run_sieve).size = 10 + 1 ∧
      (((BitSieve.new 10).run_sieve).is_set 7 = true ↔ Nat.Prime 7)) :=
  ⟨by omega, run_sieve_prime_iff 10 7 (by omega)⟩

/-- C3: the facade nth_prime takes the stated values at 0, 1, 2, 3, 4, 5,
100 and 1000; in particular the estimator bound suffices at these inputs. -/
theorem nth_prime_values :
    nth_prime 0 = none ∧ nth_prime 1 = some 2 ∧ nth_prime 2 = some 3 ∧
    nth_prime 3 = some 5 ∧ nth_prime 4 = some 7 ∧ nth_prime 5 = some 11 ∧
    nth_prime 100 = some 541 ∧ nth_prime 1000 = some 7919 :=
  ⟨nth_prime_0, nth_prime_1, nth_prime_2, nth_prime_3, nth_prime_4,
   nth_prime_5, nth_prime_100, nth_prime_1000⟩

/-- C4: whenever the facade nth_prime n returns some p for n at least 1,
p is prime and count_primes p equals n. -/
theorem nth_prime_count_consistency (n p : Nat) (hn : 1 ≤ n)
    (h : nth_prime n = some p) : count_primes p = n ∧ Nat.Prime p := by
  rw [nth_prime_facade_iff n p (by omega)] at h
  obtain ⟨hp, _, hcount⟩ := h
  refine ⟨?_, hp⟩
  rw [count_primes_eq_count]
  exact hcount

/-- Witness for C4 at n = 3, p = 5. -/
theorem nth_prime_count_consistency_witness :
    1 ≤ 3 ∧ nth_prime 3 = some 5 ∧ (count_primes 5 = 3 ∧ Nat.Prime 5) :=
  ⟨by omega, nth_prime_3, nth_prime_count_consistency 3 5 (by omega) nth_prime_3⟩

/-- C5: queries past the sieve size return false and clears past the size
are no-ops, indices inside the size address a byte inside the buffer, and
the pathological sieve new 0 clears index 1 safely and holds no set bit. -/
theorem bitsieve_bounds_safety :
    (∀ (s : BitSieve) (n : Nat), s.size ≤ n →
      s.is_set n = false ∧ s.clear n = s) ∧
    (∀ (s : BitSieve) (n : Nat), s.bits.length = (s.size + 7) / 8 →
      n < s.size → n / 8 < s.bits.length) ∧
    (BitSieve.new 0).clear 1 = BitSieve.new 0 ∧
    (∀ n : Nat, (BitSieve.new 0).is_set n = false) := by
  refine ⟨?_, ?_, ?_, ?_⟩
  · intro s n h
    exact ⟨BitSieve.is_set_of_ge h, by rw [BitSieve.clear, if_pos h]⟩
  · intro s n hlen hn
    exact BitSieve.idx_lt_length hlen hn
  · decide
  · intro n
    rw [BitSieve.is_set_new]
    simp only [decide_eq_false_iff_not]
    omega

/-- Witness for C5 at the sieve new 0 with n = 5 and the sieve new 3 with
n = 2. -/
theorem bitsieve_bounds_safety_witness :
    ((BitSieve.new 0).is_set 5 = false ∧ (BitSieve.new 0).clear 5 = BitSieve.new 0) ∧
    2 / 8 < (BitSieve.new 3).bits.length :=
  ⟨bitsieve_bounds_safety.1 (BitSieve.new 0) 5 (by decide),
   bitsieve_bounds_safety.2.1 (BitSieve.new 3) 2 (by decide) (by decide)⟩

/-- C6: isqrt computes the floor of the square root on every input, with
the stated boundary values. -/
theorem isqrt_correct :
    (∀ n, isqrt n = Nat.sqrt n) ∧ isqrt 0 = 0 ∧ isqrt 1 = 1 ∧ isqrt 2 = 1 ∧
    (∀ k, isqrt (k * k) = k) ∧ (∀ k, 1 ≤ k → isqrt (k * k - 1) = k - 1) := by
  have hsqrt2 : Nat.sqrt 2 = 1 := by
    have h1 : Nat.sqrt 2 < 2 := Nat.sqrt_lt.mpr (by omega)
    have h2 : 1 ≤ Nat.sqrt 2 := Nat.le_sqrt.mpr (by omega)
    omega
  refine ⟨isqrt_eq_sqrt, rfl, rfl, by rw [isqrt_eq_sqrt, hsqrt2], ?_, ?_⟩
  · intro k
    rw [isqrt_eq_sqrt]
    exact Nat.sqrt_eq k
  · intro k hk
    rw [isqrt_eq_sqrt]
    obtain ⟨a, rfl⟩ : ∃ a, k = a + 1 := ⟨k - 1, by omega⟩
    have h2 : (a + 1) * (a + 1) - 1 = a * a + 2 * a := by
      have h3 : (a + 1) * (a + 1) = a * a + 2 * a + 1 := by ring
      rw [h3, Nat.add_sub_cancel]
    rw [h2, Nat.sqrt_add_eq a (by omega), Nat.add_sub_cancel]

/-- Witness for C6 at k = 5. -/
theorem isqrt_correct_witness : 1 ≤ 5 ∧ isqrt (5 * 5 - 1) = 5 - 1 :=
  ⟨by omega, isqrt_correct.2.2.2.2.2 5 (by omega)⟩

/-- C7: the estimator returns 15 for n below 6 and n * log2_n * 2 with
log2_n the bit length floor(log2 n) + 1 for n at least 6 in the 64-bit
input range. -/
theorem estimate_upper_bound_eq (n : Nat) :
    (n < 6 → estimate_nth_prime_upper_bound n = 15) ∧
    (6 ≤ n → n < 2 ^ 64 →
      estimate_nth_prime_upper_bound n = n * (Nat.log2 n + 1) * 2) := by
  constructor
  · intro h
    rw [estimate_nth_prime_upper_bound, if_pos h]
  · exact estimate_eq_of_ge n

/-- Witness for C7 at n = 3 and n = 100. -/
theorem estimate_upper_bound_eq_witness :
    estimate_nth_prime_upper_bound 3 = 15 ∧
    estimate_nth_prime_upper_bound 100 = 100 * (Nat.log2 100 + 1) * 2 :=
  ⟨(estimate_upper_bound_eq 3).1 (by omega),
   (estimate_upper_bound_eq 100).2 (by omega) (by norm_num)⟩

/-- C8: the facade count_primes is monotone in its limit. -/
theorem count_primes_monotone (a b : Nat) (h : a ≤ b) :
    count_primes a ≤ count_primes b := by
  rw [count_primes_eq_count, count_primes_eq_count]
  exact Nat.count_monotone Nat.Prime (by omega)

/-- Witness for C8 at a = 10, b = 100. -/
theorem count_primes_monotone_witness :
    10 ≤ 100 ∧ count_primes 10 ≤ count_primes 100 :=
  ⟨by omega, count_primes_monotone 10 100 (by omega)⟩

/-- C9: running the sieve twice on a freshly constructed instance leaves
the whole state, byte buffer included, exactly as one run does. -/
theorem run_sieve_idempotent (limit : Nat) :
    ((BitSieve.new limit).run_sieve).run_sieve = (BitSieve.new limit).run_sieve :=
  BitSieve.run_sieve_run_sieve limit

/-- C10: the FFI wrappers return 0 for a negative limit and none for a
nonpositive n without touching the core, and forward nonnegative inputs to
the core after unsigned conversion. -/
theorem ffi_negative_guards :
    (∀ limit : Int, limit < 0 → count_primes_native limit = 0) ∧
    (∀ limit : Int, 0 ≤ limit → count_primes_native limit =
      Int.ofNat (count_primes limit.toNat)) ∧
    (∀ n : Int, n ≤ 0 → nth_prime_native n = none) ∧
    (∀ n : Int, 0 < n → nth_prime_native n = (nth_prime n.toNat).map Int.ofNat) := by
  refine ⟨?_, ?_, ?_, ?_⟩
  · intro l h
    rw [count_primes_native, if_pos h]
  · intro l h
    rw [count_primes_native, if_neg (by omega)]
  · intro n h
    rw [nth_prime_native, if_pos h]
  · intro n h
    rw [nth_prime_native, if_neg (by omega)]

/-- Witness for C10 at the inputs -3, 0, 5 and 2. -/
theorem ffi_negative_guards_witness :
    count_primes_native (-3) = 0 ∧ nth_prime_native 0 = none ∧
    count_primes_native 5 = Int.ofNat (count_primes (Int.toNat 5)) ∧
    nth_prime_native 2 = (nth_prime (Int.toNat 2)).map Int.ofNat :=
  ⟨ffi_negative_guards.1 (-3) (by norm_num),
   ffi_negative_guards.2.2.1 0 (by norm_num),
   ffi_negative_guards.2.1 5 (by norm_num),
   ffi_negative_guards.2.2.2 2 (by norm_num)⟩
